import Mathlib

/-!
# Verification of the oviewer screen compositor (draw routine)

A shallow embedding of the pager's draw cycle: the `Draw` routine, the
highlight reversal `reverseContents`, the wrap / no-wrap cell drawing
(`wrapContents`, `noWrapContents`), the header styling and the status line
(`statusDraw`).  Machine integers of the original program are modelled as
`Int`; the terminal cell sink is modelled as a total function from integer
screen coordinates to cells, with `setContent` as pointwise update.

Helpers of the program that live outside the compositor file (the chunk
store accessors, the content layout engine, the column/search position
finders and the theming constants) are modelled from the specification;
each carries a doc comment starting with `Modelled from the spec:`.
-/

set_option autoImplicit false

namespace Oviewer

/-- The cell style, mirroring the terminal library's `Style` value: a
foreground and background color plus attribute flags.  Only the attributes
the compositor touches (bold, reverse) are carried.  The library's
`Style.Reverse(on)` sets the reverse attribute to `on` (it ors the bit in
for `true` and clears it for `false`; it does not toggle). -/
structure Style where
  fg : Int
  bg : Int
  bold : Bool
  reversed : Bool
deriving DecidableEq

/-- `tcell.StyleDefault`: default colors, no attributes. -/
def defaultStyle : Style := { fg := -1, bg := -1, bold := false, reversed := false }

/-- `Style.Reverse(on)`: set the reverse attribute to `on`. -/
def Style.Reverse (s : Style) (b : Bool) : Style := { s with reversed := b }

/-- `Style.Bold(on)`: set the bold attribute to `on`. -/
def Style.Bold (s : Style) (b : Bool) : Style := { s with bold := b }

/-- `Style.Foreground(c)`: set the foreground color. -/
def Style.Foreground (s : Style) (c : Int) : Style := { s with fg := c }

/-- `Style.Background(c)`: set the background color. -/
def Style.Background (s : Style) (c : Int) : Style := { s with bg := c }

/-- `Style.Normal()`: clear all attribute flags, keeping the colors. -/
def Style.Normal (s : Style) : Style := { s with bold := false, reversed := false }

/-- Modelled from the spec: theming constants are external collaborators;
`ColorGray` is the gray used for the end-of-document marker. -/
def ColorGray : Int := 8

/-- Modelled from the spec: the alternate-row background color constant. -/
def ColorAlternate : Int := 236

/-- Modelled from the spec: the dedicated header style constant (§4.4). -/
def HeaderStyle : Style := defaultStyle.Bold true

/-- One display cell of a laid-out line: primary rune, combining runes,
display width and style (spec §3, `content` in the program). -/
structure content where
  mainc : Char
  combc : List Char
  width : Int
  style : Style
deriving DecidableEq

/-- Default cell used for (unreachable) out-of-range list indexing. -/
def blankContent : content := { mainc := ' ', combc := [], width := 1, style := defaultStyle }

/-- A laid-out line: the cell sequence plus the byte-offset to cell-index
map (spec §3, `lineContents` in the program).  The Go `map[int]int` is
modelled as a total function; the program reads absent keys as `0`, which
the layout construction below reproduces. -/
structure lineContents where
  contents : List content
  byteMap : Int → Nat

/-- Indexed map over a list, numbering elements from `k`; the purely
functional form of an in-place `for n := k; ...; n++` update loop. -/
def mapIdxFrom (f : Nat → content → content) : Nat → List content → List content
  | _, [] => []
  | n, c :: cs => f n c :: mapIdxFrom f (n + 1) cs

/-- The cell update performed by `reverseContents` on index `n`: inside
`[lo, hi)` the style's reverse attribute is set (via `Style.Reverse true`),
outside the cell is untouched. -/
def reverseCell (lo hi : Nat) (n : Nat) (c : content) : content :=
  if lo ≤ n ∧ n < hi then { c with style := c.style.Reverse true } else c

/-- `reverseContents(lc, start, end)` (draw source, lines 143–148): sets the
reverse attribute of every cell with index in
`[lc.byteMap[start], lc.byteMap[end])`.  The Go loop
`for n := lc.byteMap[start]; n < lc.byteMap[end]; n++` is rendered as an
indexed map; under the layout invariant the bounds never exceed the cell
count. -/
def reverseContents (lc : lineContents) (start stop : Int) : lineContents :=
  { lc with contents :=
      mapIdxFrom (reverseCell (lc.byteMap start) (lc.byteMap stop)) 0 lc.contents }

section MapIdxLemmas

theorem mapIdxFrom_length (f : Nat → content → content) :
    ∀ (k : Nat) (l : List content), (mapIdxFrom f k l).length = l.length := by
  intro k l
  induction l generalizing k with
  | nil => rfl
  | cons c cs ih => simp [mapIdxFrom, ih]

theorem mapIdxFrom_get? (f : Nat → content → content) :
    ∀ (k : Nat) (l : List content) (n : Nat),
      (mapIdxFrom f k l).get? n = (l.get? n).map (f (k + n)) := by
  intro k l
  induction l generalizing k with
  | nil => intro n; rfl
  | cons c cs ih =>
    intro n
    cases n with
    | zero => rfl
    | succ m =>
      simp only [mapIdxFrom, List.get?_cons_succ, ih (k + 1) m]
      have : k + 1 + m = k + (m + 1) := by omega
      rw [this]

theorem mapIdxFrom_idem (f : Nat → content → content)
    (hf : ∀ n c, f n (f n c) = f n c) :
    ∀ (k : Nat) (l : List content), mapIdxFrom f k (mapIdxFrom f k l) = mapIdxFrom f k l := by
  intro k l
  induction l generalizing k with
  | nil => rfl
  | cons c cs ih => simp [mapIdxFrom, hf, ih]

end MapIdxLemmas

theorem reverseCell_idem (lo hi n : Nat) (c : content) :
    reverseCell lo hi n (reverseCell lo hi n c) = reverseCell lo hi n c := by
  unfold reverseCell
  split <;> simp [Style.Reverse]

/-- A concrete one-cell laid-out line (the layout of the one-byte line
`"a"`): one unreversed cell, byte map `{0 ↦ 0, 1 ↦ 1}`. -/
def lcA : lineContents :=
  { contents := [{ mainc := 'a', combc := [], width := 1, style := defaultStyle }]
    byteMap := fun i => if i ≤ 0 then 0 else 1 }

/-- C1 counterexample: on the one-byte line `"a"` with the valid byte range
`0 ≤ 0 ≤ 1 ≤ 1 = len(line)`, applying `reverseContents` twice does not
restore the cell's original style: `Style.Reverse true` sets the reverse
attribute both times, so the doubly-reversed cell stays reversed while the
original was not. -/
theorem reverseContents_twice_not_identity :
    ((reverseContents (reverseContents lcA 0 1) 0 1).contents.getD 0 blankContent).style
      ≠ (lcA.contents.getD 0 blankContent).style := by
  decide

/-- C1 (amended): applying the highlight reversal to the same byte range
twice yields the same line contents as applying it once — the reversal is
idempotent (it sets each cell's reverse attribute rather than toggling it),
not an involution. -/
theorem reverseContents_idempotent (lc : lineContents) (start stop : Int) :
    reverseContents (reverseContents lc start stop) start stop =
      reverseContents lc start stop := by
  unfold reverseContents
  congr 1
  exact mapIdxFrom_idem _ (fun n c => reverseCell_idem _ _ n c) 0 lc.contents

/-- C10: `reverseContents` changes only the `style` field of the cells with
indices in `[byteMap start, byteMap stop)`; every cell keeps its rune,
combining runes and width, cells outside the range are untouched entirely,
and the byte map and cell count are preserved. -/
theorem reverseContents_frame (lc : lineContents) (start stop : Int) :
    (reverseContents lc start stop).byteMap = lc.byteMap ∧
    (reverseContents lc start stop).contents.length = lc.contents.length ∧
    (∀ n : Nat, lc.byteMap start ≤ n → n < lc.byteMap stop →
      (reverseContents lc start stop).contents.get? n =
        (lc.contents.get? n).map fun c => { c with style := c.style.Reverse true }) ∧
    (∀ n : Nat, ¬(lc.byteMap start ≤ n ∧ n < lc.byteMap stop) →
      (reverseContents lc start stop).contents.get? n = lc.contents.get? n) ∧
    (∀ n : Nat,
      ((reverseContents lc start stop).contents.getD n blankContent).mainc =
        (lc.contents.getD n blankContent).mainc ∧
      ((reverseContents lc start stop).contents.getD n blankContent).combc =
        (lc.contents.getD n blankContent).combc ∧
      ((reverseContents lc start stop).contents.getD n blankContent).width =
        (lc.contents.getD n blankContent).width) := by
  refine ⟨rfl, mapIdxFrom_length _ 0 lc.contents, ?_, ?_, ?_⟩
  · intro n hlo hhi
    rw [reverseContents]
    simp only [mapIdxFrom_get?, Nat.zero_add]
    cases lc.contents.get? n with
    | none => rfl
    | some c => simp [reverseCell, hlo, hhi]
  · intro n hout
    rw [reverseContents]
    simp only [mapIdxFrom_get?, Nat.zero_add]
    cases lc.contents.get? n with
    | none => rfl
    | some c =>
      simp only [Option.map_some']
      unfold reverseCell
      rw [if_neg hout]
  · intro n
    rw [List.getD_eq_get?, List.getD_eq_get?, reverseContents]
    simp only [mapIdxFrom_get?, Nat.zero_add]
    cases lc.contents.get? n with
    | none => exact ⟨rfl, rfl, rfl⟩
    | some c =>
      simp only [Option.map_some', Option.getD_some]
      unfold reverseCell
      split <;> exact ⟨rfl, rfl, rfl⟩

/-- Witness for C10 at a concrete input: index `0` lies in the highlighted
range of `lcA` for byte range `[0, 1)` and gets its style reversed, while
the rune is kept. -/
theorem reverseContents_frame_witness :
    (reverseContents lcA 0 1).contents.get? 0 =
      some { mainc := 'a', combc := [], width := 1, style := defaultStyle.Reverse true } ∧
    ((reverseContents lcA 0 1).contents.getD 0 blankContent).mainc =
      ((lcA.contents.getD 0 blankContent)).mainc := by
  constructor
  · have h := (reverseContents_frame lcA 0 1).2.2.1 0 (by decide) (by decide)
    rw [h]
    decide
  · exact ((reverseContents_frame lcA 0 1).2.2.2.2 0).1

/-! ## The cell sink (screen) and the two line-drawing primitives -/

/-- One cell of the terminal screen as the cell sink stores it: primary
rune, combining runes and style (`SetContent` takes no width). -/
structure ScreenCell where
  mainc : Char
  combc : List Char
  style : Style
deriving DecidableEq

/-- The screen: a total function from integer cell coordinates to cells.
The cell sink accepts `(x, y, rune, combining, style)` writes at any
coordinate. -/
def Screen : Type := Int → Int → ScreenCell

/-- `Screen.SetContent(x, y, mainc, combc, style)`: pointwise update. -/
def setContent (scr : Screen) (x y : Int) (c : ScreenCell) : Screen :=
  fun p q => if p = x ∧ q = y then c else scr p q

/-- The screen cell written for a content cell. -/
def cellOf (c : content) : ScreenCell := { mainc := c.mainc, combc := c.combc, style := c.style }

/-- The inner loop of `wrapContents` (draw source, lines 151–167).  The Go
loop `for x := 0; ; x++` exits either at end of line (`lX+x >= len`, which
resets the offset to 0 and advances `lY`) or when the next cell would
exceed the viewport width (remembering `lX+x` and keeping `lY`).  The
recursion is structural on `r`, the number of cells left on the line,
maintained as `(len(contents) - lX - x).toNat`, so `r = 0` is exactly the
`lX+x >= len(contents)` exit. -/
def wrapGo (startX vWidth : Int) (y lY lX : Int) (contents : List content) :
    Screen → Nat → Nat → Screen × Int × Int
  | scr, _, 0 => (scr, 0, lY + 1)
  | scr, x, r + 1 =>
    let c := contents.getD (lX + x).toNat blankContent
    if (x : Int) + c.width + startX > vWidth then (scr, lX + x, lY)
    else wrapGo startX vWidth y lY lX contents
      (setContent scr ((x : Int) + startX) y (cellOf c)) (x + 1) r

/-- `wrapContents(y, lX, lY, contents)` (draw source, lines 150–168):
wrap-draws one screen row of the logical line starting at cell offset `lX`,
returning the updated screen and the next `(lX, lY)` drawing position. -/
def wrapContents (startX vWidth : Int) (scr : Screen) (y lX lY : Int)
    (contents : List content) : Screen × Int × Int :=
  wrapGo startX vWidth y lY lX contents scr 0 ((contents.length - lX).toNat)

/-- The inner loop of `noWrapContents` (draw source, lines 170–187).  The
Go loop `for x := 0; x+startX < vWidth; x++` skips cells left of the scroll
window (`lX+x < 0`), stops at end of line, and otherwise writes the cell at
column `x+startX`.  The recursion is structural on `r`, the number of
columns left in the viewport, maintained as `(vWidth - startX - x).toNat`,
so `r = 0` is exactly the loop exit `x + startX >= vWidth`. -/
def noWrapGo (startX : Int) (y lX : Int) (contents : List content) :
    Screen → Nat → Nat → Screen
  | scr, _, 0 => scr
  | scr, x, r + 1 =>
    if lX + x < 0 then noWrapGo startX y lX contents scr (x + 1) r
    else if lX + x ≥ (contents.length : Int) then scr
    else
      let c := contents.getD (lX + x).toNat blankContent
      noWrapGo startX y lX contents
        (setContent scr ((x : Int) + startX) y (cellOf c)) (x + 1) r

/-- `noWrapContents(y, lX, lY, contents)` (draw source, lines 170–187):
draws one logical line without wrapping, after clamping the horizontal
offset up to `minStartX`; always advances exactly one logical line. -/
def noWrapContents (minStartX startX vWidth : Int) (scr : Screen) (y lX lY : Int)
    (contents : List content) : Screen × Int × Int :=
  let lX2 := if lX < minStartX then minStartX else lX
  (noWrapGo startX y lX2 contents scr 0 ((vWidth - startX).toNat), lX2, lY + 1)

/-- The screen every example starts from: all cells blank with the default
style. -/
def emptyScreen : Screen := fun _ _ => { mainc := ' ', combc := [], style := defaultStyle }

theorem noWrapGo_frame (startX y lX : Int) (contents : List content) :
    ∀ (r x : Nat) (scr : Screen) (p q : Int),
      q ≠ y ∨ p < startX + x ∨ startX + x + r ≤ p →
      noWrapGo startX y lX contents scr x r p q = scr p q := by
  intro r
  induction r with
  | zero => intro x scr p q _; rfl
  | succ n ih =>
    intro x scr p q h
    rw [noWrapGo]
    split
    · apply ih
      rcases h with h | h | h
      · exact Or.inl h
      · exact Or.inr (Or.inl (by push_cast; push_cast at h; omega))
      · exact Or.inr (Or.inr (by push_cast; push_cast at h; omega))
    · split
      · rfl
      · rw [ih]
        · rw [setContent]
          have hne : ¬(p = (x : Int) + startX ∧ q = y) := by
            rcases h with h | h | h
            · exact fun hc => h hc.2
            · exact fun hc => by push_cast at h; omega
            · exact fun hc => by push_cast at h; omega
          rw [if_neg hne]
        · rcases h with h | h | h
          · exact Or.inl h
          · exact Or.inr (Or.inl (by push_cast; push_cast at h; omega))
          · exact Or.inr (Or.inr (by push_cast; push_cast at h; omega))

/-- C5: no-wrap drawing clamps the horizontal offset up to `minStartX`,
advances exactly one logical line, and never writes a cell at a screen
column outside `[startX, vWidth)` (nor on any other row). -/
theorem noWrapContents_clips (minStartX startX vWidth : Int) (scr : Screen)
    (y lX lY : Int) (contents : List content) :
    (noWrapContents minStartX startX vWidth scr y lX lY contents).2.1 = max lX minStartX ∧
    (noWrapContents minStartX startX vWidth scr y lX lY contents).2.2 = lY + 1 ∧
    (∀ p q : Int, q ≠ y ∨ p < startX ∨ vWidth ≤ p →
      (noWrapContents minStartX startX vWidth scr y lX lY contents).1 p q = scr p q) := by
  refine ⟨?_, rfl, ?_⟩
  · show (if lX < minStartX then minStartX else lX) = max lX minStartX
    rw [max_def]
    split <;> split <;> omega
  · intro p q hpq
    show noWrapGo startX y _ contents scr 0 ((vWidth - startX).toNat) p q = scr p q
    by_cases hsw : startX ≤ vWidth
    · apply noWrapGo_frame
      rcases hpq with h | h | h
      · exact Or.inl h
      · exact Or.inr (Or.inl (by push_cast; omega))
      · refine Or.inr (Or.inr ?_)
        have ht : ((vWidth - startX).toNat : Int) = vWidth - startX :=
          Int.toNat_of_nonneg (by omega)
        push_cast
        omega
    · have h0 : (vWidth - startX).toNat = 0 := by omega
      rw [h0]
      rfl

/-- Witness for C5 at a concrete input: a negative scroll offset is clamped
up to `minStartX = -3`, one logical line is consumed, and cells left of the
gutter column `2` and at or right of the viewport width `5` are untouched. -/
theorem noWrapContents_clips_witness :
    (noWrapContents (-3) 2 5 emptyScreen 1 (-10) 0 (List.replicate 3 blankContent)).2.1 = -3 ∧
    (noWrapContents (-3) 2 5 emptyScreen 1 (-10) 0 (List.replicate 3 blankContent)).2.2 = 1 ∧
    (noWrapContents (-3) 2 5 emptyScreen 1 (-10) 0 (List.replicate 3 blankContent)).1 1 1 =
      emptyScreen 1 1 ∧
    (noWrapContents (-3) 2 5 emptyScreen 1 (-10) 0 (List.replicate 3 blankContent)).1 5 1 =
      emptyScreen 5 1 := by
  have h := noWrapContents_clips (-3) 2 5 emptyScreen 1 (-10) 0 (List.replicate 3 blankContent)
  exact ⟨h.1.trans (by decide), h.2.1,
    h.2.2 1 1 (Or.inr (Or.inl (by decide))), h.2.2 5 1 (Or.inr (Or.inr (by decide)))⟩

theorem getD_mem_of_lt (contents : List content) (n : Nat) (h : n < contents.length) :
    contents.getD n blankContent ∈ contents := by
  rw [List.getD_eq_get contents blankContent h]
  exact List.get_mem contents n h

/-- Inner wrap loop, break case: with width-1 cells, gutter 0 and viewport
width 10, if at least 11 cells remain on the line starting at offset `lX`,
the loop writes columns `[x, 10)` of row `y` and breaks with the offset
advanced to `lX + 10` and `lY` unchanged. -/
theorem wrapGo_break (y lY : Int) (contents : List content)
    (hw : ∀ c ∈ contents, c.width = 1) (lX : Int) (hlX : 0 ≤ lX)
    (hlen : lX + 10 < contents.length) :
    ∀ (k x r : Nat) (scr : Screen),
      x + k = 10 → (r : Int) = contents.length - lX - x →
      (wrapGo 0 10 y lY lX contents scr x r).2.1 = lX + 10 ∧
      (wrapGo 0 10 y lY lX contents scr x r).2.2 = lY ∧
      (∀ i : Nat, x ≤ i → i < 10 →
        (wrapGo 0 10 y lY lX contents scr x r).1 i y =
          cellOf (contents.getD (lX + i).toNat blankContent)) ∧
      (∀ p q : Int, q ≠ y ∨ p < (x : Int) ∨ 10 ≤ p →
        (wrapGo 0 10 y lY lX contents scr x r).1 p q = scr p q) := by
  intro k
  induction k with
  | zero =>
    intro x r scr hx hr
    obtain ⟨m, rfl⟩ : ∃ m, r = m + 1 := ⟨r - 1, by omega⟩
    have hx10 : x = 10 := by omega
    subst hx10
    have hmem : contents.getD (lX + (10 : Nat)).toNat blankContent ∈ contents :=
      getD_mem_of_lt contents _ (by omega)
    have hw1 : (contents.getD (lX + (10 : Nat)).toNat blankContent).width = 1 := hw _ hmem
    rw [wrapGo]
    simp only [hw1]
    rw [if_pos (by norm_num)]
    refine ⟨by push_cast; ring, rfl, ?_, fun p q _ => rfl⟩
    intro i hi hi10
    omega
  | succ n ih =>
    intro x r scr hx hr
    obtain ⟨m, rfl⟩ : ∃ m, r = m + 1 := ⟨r - 1, by omega⟩
    have hmem : contents.getD (lX + x).toNat blankContent ∈ contents :=
      getD_mem_of_lt contents _ (by omega)
    have hw1 : (contents.getD (lX + x).toNat blankContent).width = 1 := hw _ hmem
    rw [wrapGo]
    simp only [hw1]
    rw [if_neg (by push_cast; omega)]
    obtain ⟨ha, hb, hc, hd⟩ :=
      ih (x + 1) m (setContent scr ((x : Int) + 0) y
        (cellOf (contents.getD (lX + x).toNat blankContent))) (by omega) (by push_cast at hr ⊢; omega)
    refine ⟨ha, hb, ?_, ?_⟩
    · intro i hi hi10
      rcases Nat.eq_or_lt_of_le hi with hix | hix
      · subst hix
        rw [hd (x : Int) y (Or.inr (Or.inl (by push_cast; omega)))]
        rw [setContent, if_pos ⟨by push_cast; ring, rfl⟩]
      · exact hc i (by omega) hi10
    · intro p q hpq
      rw [hd p q ?side]
      case side =>
        rcases hpq with h | h | h
        · exact Or.inl h
        · exact Or.inr (Or.inl (by push_cast; omega))
        · exact Or.inr (Or.inr h)
      rw [setContent]
      rw [if_neg ?neg]
      case neg =>
        rintro ⟨hp, hq⟩
        rcases hpq with h | h | h
        · exact h hq
        · push_cast at h; omega
        · push_cast at h; omega

/-- Inner wrap loop, end-of-line case: with width-1 cells, gutter 0 and
viewport width 10, if the cells remaining from offset `lX` fit in the row,
the loop writes them at columns `[x, len - lX)` of row `y`, resets the
offset to 0 and advances `lY`. -/
theorem wrapGo_eol (y lY : Int) (contents : List content)
    (hw : ∀ c ∈ contents, c.width = 1) (lX : Int) (hlX : 0 ≤ lX)
    (hfit : (contents.length : Int) ≤ lX + 10) :
    ∀ (r x : Nat) (scr : Screen),
      lX + x ≤ (contents.length : Int) → (r : Int) = contents.length - lX - x →
      (wrapGo 0 10 y lY lX contents scr x r).2.1 = 0 ∧
      (wrapGo 0 10 y lY lX contents scr x r).2.2 = lY + 1 ∧
      (∀ i : Nat, x ≤ i → lX + i < (contents.length : Int) →
        (wrapGo 0 10 y lY lX contents scr x r).1 i y =
          cellOf (contents.getD (lX + i).toNat blankContent)) ∧
      (∀ p q : Int, q ≠ y ∨ p < (x : Int) ∨ (contents.length : Int) - lX ≤ p →
        (wrapGo 0 10 y lY lX contents scr x r).1 p q = scr p q) := by
  intro r
  induction r with
  | zero =>
    intro x scr hxle hr
    refine ⟨rfl, rfl, ?_, fun p q _ => rfl⟩
    intro i hi hilen
    omega
  | succ m ih =>
    intro x scr hxle hr
    have hmem : contents.getD (lX + x).toNat blankContent ∈ contents :=
      getD_mem_of_lt contents _ (by omega)
    have hw1 : (contents.getD (lX + x).toNat blankContent).width = 1 := hw _ hmem
    rw [wrapGo]
    simp only [hw1]
    rw [if_neg (by push_cast; omega)]
    obtain ⟨ha, hb, hc, hd⟩ :=
      ih (x + 1) (setContent scr ((x : Int) + 0) y
        (cellOf (contents.getD (lX + x).toNat blankContent))) (by push_cast; omega)
        (by push_cast at hr ⊢; omega)
    refine ⟨ha, hb, ?_, ?_⟩
    · intro i hi hilen
      rcases Nat.eq_or_lt_of_le hi with hix | hix
      · subst hix
        rw [hd (x : Int) y (Or.inr (Or.inl (by push_cast; omega)))]
        rw [setContent, if_pos ⟨by push_cast; ring, rfl⟩]
      · exact hc i (by omega) hilen
    · intro p q hpq
      rw [hd p q ?side]
      case side =>
        rcases hpq with h | h | h
        · exact Or.inl h
        · exact Or.inr (Or.inl (by push_cast; omega))
        · exact Or.inr (Or.inr h)
      rw [setContent]
      rw [if_neg ?neg]
      case neg =>
        rintro ⟨hp, hq⟩
        rcases hpq with h | h | h
        · exact h hq
        · push_cast at h; omega
        · push_cast at h; omega

/-- C3: wrap drawing of a logical line of 25 width-1 cells in a viewport of
width 10 with gutter width 0 (`startX = 0`) produces exactly three screen
rows of content — cells `[0,10)`, `[10,20)` and `[20,25)` of the line at
columns `[0,10)`, `[0,10)` and `[0,5)` of rows `y`, `y+1`, `y+2` — and
signals advance to the next logical line (`lY + 1`, offset reset to 0) only
after the third row; the first two calls keep `lY` and carry the cell
offset forward (10, then 20), and nothing is written outside those rows and
columns. -/
theorem wrap_25_cells (contents : List content) (h1 : contents.length = 25)
    (hw : ∀ c ∈ contents, c.width = 1) (scr : Screen) (y lY : Int) :
    let s1 := wrapContents 0 10 scr y 0 lY contents
    let s2 := wrapContents 0 10 s1.1 (y + 1) 10 lY contents
    let s3 := wrapContents 0 10 s2.1 (y + 2) 20 lY contents
    s1.2.1 = 10 ∧ s1.2.2 = lY ∧ s2.2.1 = 20 ∧ s2.2.2 = lY ∧
    s3.2.1 = 0 ∧ s3.2.2 = lY + 1 ∧
    (∀ i : Nat, i < 10 → s3.1 i y = cellOf (contents.getD i blankContent)) ∧
    (∀ i : Nat, i < 10 → s3.1 i (y + 1) = cellOf (contents.getD (10 + i) blankContent)) ∧
    (∀ i : Nat, i < 5 → s3.1 i (y + 2) = cellOf (contents.getD (20 + i) blankContent)) ∧
    (∀ p q : Int, (q ≠ y ∧ q ≠ y + 1 ∧ q ≠ y + 2) ∨ p < 0 ∨ 10 ≤ p → s3.1 p q = scr p q) ∧
    (∀ p : Int, 5 ≤ p → s3.1 p (y + 2) = scr p (y + 2)) := by
  intro s1 s2 s3
  have hs1 : s1 = wrapGo 0 10 y lY 0 contents scr 0 25 := by
    show wrapGo 0 10 y lY 0 contents scr 0 (((contents.length : Int) - 0).toNat) = _
    rw [h1]
    rfl
  have hs2 : s2 = wrapGo 0 10 (y + 1) lY 10 contents s1.1 0 15 := by
    show wrapGo 0 10 (y + 1) lY 10 contents s1.1 0 (((contents.length : Int) - 10).toNat) = _
    rw [h1]
    rfl
  have hs3 : s3 = wrapGo 0 10 (y + 2) lY 20 contents s2.1 0 5 := by
    show wrapGo 0 10 (y + 2) lY 20 contents s2.1 0 (((contents.length : Int) - 20).toNat) = _
    rw [h1]
    rfl
  obtain ⟨H1a, H1b, H1c, H1d⟩ :=
    wrapGo_break y lY contents hw 0 (le_refl 0) (by omega)
      10 0 25 scr (by norm_num) (by omega)
  obtain ⟨H2a, H2b, H2c, H2d⟩ :=
    wrapGo_break (y + 1) lY contents hw 10 (by norm_num) (by omega)
      10 0 15 s1.1 (by norm_num) (by omega)
  obtain ⟨H3a, H3b, H3c, H3d⟩ :=
    wrapGo_eol (y + 2) lY contents hw 20 (by norm_num) (by omega)
      5 0 s2.1 (by omega) (by omega)
  refine ⟨?_, ?_, ?_, ?_, ?_, ?_, ?_, ?_, ?_, ?_, ?_⟩
  · rw [hs1, H1a]; norm_num
  · rw [hs1]; exact H1b
  · rw [hs2, H2a]; norm_num
  · rw [hs2]; exact H2b
  · rw [hs3]; exact H3a
  · rw [hs3]; exact H3b
  · intro i hi
    rw [hs3, H3d (i : Int) y (Or.inl (by omega)), hs2,
      H2d (i : Int) y (Or.inl (by omega)), hs1, H1c i (Nat.zero_le i) hi]
    have he : ((0 : Int) + (i : Int)).toNat = i := by omega
    rw [he]
  · intro i hi
    rw [hs3, H3d (i : Int) (y + 1) (Or.inl (by omega)), hs2,
      H2c i (Nat.zero_le i) hi]
    have he : ((10 : Int) + (i : Int)).toNat = 10 + i := by omega
    rw [he]
  · intro i hi
    rw [hs3, H3c i (Nat.zero_le i) (by omega)]
    have he : ((20 : Int) + (i : Int)).toNat = 20 + i := by omega
    rw [he]
  · intro p q hpq
    rcases hpq with ⟨hqa, hqb, hqc⟩ | hp | hp
    · rw [hs3, H3d p q (Or.inl hqc), hs2, H2d p q (Or.inl hqb), hs1,
        H1d p q (Or.inl hqa)]
    · rw [hs3, H3d p q (Or.inr (Or.inl (by push_cast; omega))), hs2,
        H2d p q (Or.inr (Or.inl (by push_cast; omega))), hs1,
        H1d p q (Or.inr (Or.inl (by push_cast; omega)))]
    · rw [hs3, H3d p q (Or.inr (Or.inr (by omega))), hs2,
        H2d p q (Or.inr (Or.inr hp)), hs1, H1d p q (Or.inr (Or.inr hp))]
  · intro p hp
    rw [hs3, H3d p (y + 2) (Or.inr (Or.inr (by omega))), hs2,
      H2d p (y + 2) (Or.inl (by omega)), hs1, H1d p (y + 2) (Or.inl (by omega))]

/-- A concrete logical line of 25 width-1 cells for the C3 witness. -/
def c25 : List content :=
  List.replicate 25 { mainc := 'z', combc := [], width := 1, style := defaultStyle }

/-- Witness for C3 at a concrete input: on a blank screen and rows 0, 1, 2,
the first call carries offset 10, the third call advances the logical line,
cell 3 of the line lands at column 3 of row 0, and column 7 of the third
row is untouched (the third row holds only 5 cells). -/
theorem wrap_25_cells_witness :
    (wrapContents 0 10 emptyScreen 0 0 0 c25).2.1 = 10 ∧
    (wrapContents 0 10 (wrapContents 0 10 (wrapContents 0 10 emptyScreen 0 0 0 c25).1
        ((0 : Int) + 1) 10 0 c25).1 ((0 : Int) + 2) 20 0 c25).2.2 = 0 + 1 ∧
    (wrapContents 0 10 (wrapContents 0 10 (wrapContents 0 10 emptyScreen 0 0 0 c25).1
        ((0 : Int) + 1) 10 0 c25).1 ((0 : Int) + 2) 20 0 c25).1 3 0 =
      cellOf (c25.getD 3 blankContent) ∧
    (wrapContents 0 10 (wrapContents 0 10 (wrapContents 0 10 emptyScreen 0 0 0 c25).1
        ((0 : Int) + 1) 10 0 c25).1 ((0 : Int) + 2) 20 0 c25).1 7 ((0 : Int) + 2) =
      emptyScreen 7 ((0 : Int) + 2) := by
  obtain ⟨a1, a2, a3, a4, a5, a6, a7, a8, a9, a10, a11⟩ :=
    wrap_25_cells c25 (by decide) (by decide) emptyScreen 0 0
  exact ⟨a1, a6, a7 3 (by norm_num), a11 7 (by norm_num)⟩

/-! ## The content layout engine, document accessors and view state

These helpers live outside the compositor source file; they are modelled
from the specification. -/

/-- Modelled from the spec: the East-Asian display width of a character
(§4.2), simplified to a cheap code-point test (1 below U+1100, else 2); the
claims under verification only exercise width-1 characters. -/
def charWidth (ch : Char) : Int := if ch.toNat < 0x1100 then 1 else 2

/-- Modelled from the spec: the content layout engine (§4.2), absent from
src/.  Walks the characters of a line accumulating the display column, the
byte offset and the cell index, and produces the display cells together
with the byte-offset→cell-index pairs (every byte of a character maps to
its first cell; a final sentinel pair maps the line's byte length to the
cell count).  A width-2 character adds a width-0 placeholder cell; a tab
expands to `tabWidth - col % tabWidth` spaces when `tabWidth > 0` and to a
single control glyph otherwise; combining and malformed sequences are not
exercised by the claims and are not modelled. -/
def layoutGo (tab : Int) : Int → Nat → Nat → List Char → List content × List (Nat × Nat)
  | _, off, idx, [] => ([], [(off, idx)])
  | col, off, idx, ch :: rest =>
    if ch = '\t' then
      if tab ≤ 0 then
        let r := layoutGo tab (col + 1) (off + ch.utf8Size) (idx + 1) rest
        ({ mainc := '^', combc := [], width := 1, style := defaultStyle } :: r.1,
          (off, idx) :: r.2)
      else
        let k := (tab - col % tab).toNat
        let r := layoutGo tab (col + k) (off + ch.utf8Size) (idx + k) rest
        (List.replicate k { mainc := ' ', combc := [], width := 1, style := defaultStyle } ++ r.1,
          (off, idx) :: r.2)
    else
      let w := charWidth ch
      let cells :=
        if w = 2 then
          [{ mainc := ch, combc := [], width := 2, style := defaultStyle },
            { mainc := Char.ofNat 0, combc := [], width := 0, style := defaultStyle }]
        else [{ mainc := ch, combc := [], width := 1, style := defaultStyle }]
      let r := layoutGo tab (col + w) (off + ch.utf8Size) (idx + cells.length) rest
      (cells ++ r.1, ((List.range ch.utf8Size).map fun j => (off + j, idx)) ++ r.2)

/-- Modelled from the spec: `strToContents(str, tabWidth)` — the cell
sequence of a laid-out string (§4.2). -/
def strToContents (s : String) (tab : Int) : List content :=
  (layoutGo tab 0 0 0 s.data).1

/-- Modelled from the spec: the byte-offset→cell-index map of a laid-out
line (§4.2, §3); reading an absent key yields 0 like the program's map
lookup. -/
def byteMapOf (s : String) (tab : Int) : Int → Nat := fun i =>
  if i < 0 then 0 else (((layoutGo tab 0 0 0 s.data).2).lookup i.toNat).getD 0

/-- Modelled from the spec: the full layout of one line (§4.2). -/
def layoutLine (s : String) (tab : Int) : lineContents :=
  { contents := strToContents s tab, byteMap := byteMapOf s tab }

/-- The input (prompt) modes; the status line only distinguishes `Normal`
from the prompt modes. -/
inductive InputMode where
  | Normal
  | Search
  | Backsearch
  | Goline
  | HeaderCount
deriving DecidableEq

/-- The input state read by the draw cycle.  Modelled from the spec: the
compiled search pattern is abstracted by its match-span function (§4.3
search position finder) — `searchPosition(line, reg)` is `reg line`. -/
structure Input where
  mode : InputMode
  value : String
  cursorX : Int
  prompt : String
  reg : Option (String → List (Int × Int))

/-- The document and viewport state the draw cycle reads.  Modelled from
the spec: the chunk store is abstracted by the list of buffered raw lines
(§3, §4.1). -/
structure Model where
  bufLines : List String
  FileName : String
  eof : Bool
  lineNum : Int
  x : Int
  yy : Int
  vWidth : Int
  vHight : Int

/-- The view state (`Root`) read by the draw cycle.  `bottomLineNum` is
modelled from the spec as an abstract function: it computes the highest
anchor that still fills the viewport (§4.4 step 2) and its code is not part
of the compositor source. -/
structure Root where
  Header : Int
  TabWidth : Int
  WrapMode : Bool
  ColumnMode : Bool
  LineNumMode : Bool
  AlternateRows : Bool
  CaseSensitive : Bool
  Debug : Bool
  ColumnDelimiter : String
  columnNum : Int
  startX : Int
  minStartX : Int
  statusPos : Int
  bottomPos : Int
  message : String
  input : Input
  bottomLineNum : Int → Int

/-- Modelled from the spec: `BufEndNum()` — the number of lines buffered so
far (§4.1 `lineCount`). -/
def BufEndNum (m : Model) : Int := m.bufLines.length

/-- Modelled from the spec: `BufEOF()` — whether the document has signaled
end-of-input. -/
def BufEOF (m : Model) : Bool := m.eof

/-- Modelled from the spec: `GetLine(n)` — the raw text of logical line
`n`, empty for an out-of-range request. -/
def GetLine (m : Model) (n : Int) : String :=
  if 0 ≤ n ∧ n < BufEndNum m then m.bufLines.getD n.toNat "" else ""

/-- Modelled from the spec: `lineToContents(n, tabWidth)` — chunk-store
access plus layout (§4.1, §4.2); fails with `OutOfRange` exactly when `n`
is not below the current line count (§7). -/
def lineToContents (m : Model) (n : Int) (tab : Int) : Except Unit lineContents :=
  if 0 ≤ n ∧ n < BufEndNum m then Except.ok (layoutLine (GetLine m n) tab)
  else Except.error ()

/-- Modelled from the spec: `HeaderLen()` — body rows start at row `Header`
(§4.4 step 5). -/
def HeaderLen (root : Root) : Int := root.Header

/-- Byte spans of the delimiter-separated pieces of a line, walking the
split pieces with a running byte offset. -/
def fieldSpans (delimLen : Nat) : Nat → List String → List (Int × Int)
  | _, [] => []
  | off, f :: rest =>
    ((off : Int), (off : Int) + (f.utf8ByteSize : Int)) ::
      fieldSpans delimLen (off + f.utf8ByteSize + delimLen) rest

/-- Modelled from the spec: `rangePosition(line, delimiter, columnNum)` —
the column position finder (§4.3): the `[start, end)` byte span of the
`columnNum`-th delimiter-separated field; an out-of-range column yields the
empty span at end of line. -/
def rangePosition (line delim : String) (colNum : Int) : Int × Int :=
  let spans := fieldSpans delim.utf8ByteSize 0 (line.splitOn delim)
  if 0 ≤ colNum ∧ colNum.toNat < spans.length then spans.getD colNum.toNat (0, 0)
  else ((line.utf8ByteSize : Int), (line.utf8ByteSize : Int))

/-! ## The draw cycle -/

/-- `headerStyle(contents)` (draw source, lines 189–194): give every cell
the header style. -/
def headerStyle (contents : List content) : List content :=
  contents.map fun c => { c with style := HeaderStyle }

/-- One header line's processing in the header loop of `Draw` (lines
42–49): header styling, then column highlight when column mode is on. -/
def headerLineContents (root : Root) (m : Model) (lY : Int) (lc : lineContents) : lineContents :=
  let styled : lineContents := { lc with contents := headerStyle lc.contents }
  if root.ColumnMode then
    let se := rangePosition (GetLine m lY) root.ColumnDelimiter root.columnNum
    reverseContents styled se.1 se.2
  else styled

/-- The header loop of `Draw` (lines 35–56): `for hy := 0; lY < Header;
hy++ { ... }`.  The loop has no intrinsic termination measure — when
`lineToContents` fails, `continue` advances `hy` but not `lY` — so the
recursion is indexed by explicit fuel, with `none` meaning the guard
`lY < Header` never became false within the fuel. -/
def headerLoopGo (root : Root) (m : Model) :
    Nat → Screen → Int → Int → Int → Option (Screen × Int × Int)
  | 0, _, _, _, _ => none
  | fuel + 1, scr, lX, lY, hy =>
    if lY < root.Header then
      match lineToContents m lY root.TabWidth with
      | Except.error _ => headerLoopGo root m fuel scr lX lY (hy + 1)
      | Except.ok lc =>
        let lc2 := headerLineContents root m lY lc
        let r :=
          if root.WrapMode then wrapContents root.startX m.vWidth scr hy lX lY lc2.contents
          else noWrapContents root.minStartX root.startX m.vWidth scr hy m.x lY lc2.contents
        headerLoopGo root m fuel r.1 r.2.1 r.2.2 (hy + 1)
    else some (scr, lX, lY)

/-- `setContentString(vx, vy, contents)` (lines 240–246): write a cell list
at successive columns from `vx` on row `vy`. -/
def setContentString (scr : Screen) (vx vy : Int) : List content → Screen
  | [] => scr
  | c :: cs => setContentString (setContent scr vx vy (cellOf c)) (vx + 1) vy cs

/-- Write cell `c` at columns `[0, n)` of `row`: the inner loop of
`ResetScreen` and the clearing loop of `statusDraw`. -/
def fillRow (row : Int) (c : ScreenCell) (scr : Screen) : Nat → Screen
  | 0 => scr
  | n + 1 => setContent (fillRow row c scr n) (n : Int) row c

/-- Write cell `c` on every column of `[0, w)` of each row in
`[0, rows)`. -/
def fillRows (w : Nat) (c : ScreenCell) (scr : Screen) : Nat → Screen
  | 0 => scr
  | n + 1 => fillRow (n : Int) c (fillRows w c scr n) w

/-- `ResetScreen()` (lines 128–141): blank every viewport cell with a
normal-styled space. -/
def ResetScreen (m : Model) (scr : Screen) : Screen :=
  fillRows m.vWidth.toNat { mainc := ' ', combc := [], style := defaultStyle.Normal } scr
    m.vHight.toNat

/-- The alternate-row tint loop of `Draw` (lines 105–114): rewrite columns
`[0, n)` of `row` with their background replaced by `bg`. -/
def tintRow (bg : Int) (row : Int) (scr : Screen) : Nat → Screen
  | 0 => scr
  | n + 1 =>
    let s := tintRow bg row scr n
    let c := s (n : Int) row
    setContent s (n : Int) row { mainc := c.mainc, combc := c.combc, style := c.style.Background bg }

/-- `fmt.Sprintf("%*d", w, n)`: the decimal of `n` space-padded to width
`w` (right-aligned for nonnegative `w`, left-aligned for negative `w`). -/
def padInt (w : Int) (n : Int) : String :=
  let s := toString n
  if 0 ≤ w then
    if s.length < w.toNat then String.mk (List.replicate (w.toNat - s.length) ' ') ++ s else s
  else
    if s.length < (-w).toNat then s ++ String.mk (List.replicate ((-w).toNat - s.length) ' ')
    else s

/-- `statusDraw()` (lines 196–238): clear the status row, draw the left
segment (file name and message in reverse video in normal mode, the prompt
and typed input otherwise) with the cursor after it, draw the right-aligned
`(lineNum/total…)` segment, then the debug segment when enabled.  Returns
the updated screen and the cursor position. -/
def statusDraw (root : Root) (m : Model) (scr : Screen) : Screen × Int × Int :=
  let scr1 := fillRow root.statusPos
    { mainc := Char.ofNat 0, combc := [], style := defaultStyle } scr m.vWidth.toNat
  let leftC0 := strToContents (m.FileName ++ ":" ++ root.message) (-1)
  let cs := if root.CaseSensitive then "(Aa)" else ""
  let lr :=
    if root.input.mode ≠ InputMode.Normal then
      let p := cs ++ root.input.prompt
      (strToContents (p ++ root.input.value) (-1), (p.utf8ByteSize : Int) + root.input.cursorX)
    else
      (leftC0.map fun c => { c with style := c.style.Reverse true }, (leftC0.length : Int))
  let scr2 := setContentString scr1 0 root.statusPos lr.1
  let next := if BufEOF m then "" else "..."
  let rightStatus := "(" ++ toString m.lineNum ++ "/" ++ toString (BufEndNum m) ++ next ++ ")"
  let scr3 := setContentString scr2 (m.vWidth - (rightStatus.utf8ByteSize : Int)) root.statusPos
    (strToContents rightStatus (-1))
  let scr4 :=
    if root.Debug then
      let debugMsg := "header:" ++ toString root.Header ++ "(" ++ toString (HeaderLen root) ++
        ") body:" ++ toString m.lineNum ++ "-" ++ toString root.bottomPos ++ " \n"
      setContentString scr3 (m.vWidth / 2) root.statusPos (strToContents debugMsg 0)
    else scr3
  (scr4, lr.2, root.statusPos)

/-- The end-of-document marker cell written by the body loop (line 64): a
gray `~` at column 0. -/
def tildeCell : ScreenCell :=
  { mainc := '~', combc := [], style := defaultStyle.Foreground ColorGray }

/-- The body loop of `Draw` (lines 58–116): `for y := HeaderLen(); y <
vHight; y++ { ... }`.  The recursion is structural on `r`, the number of
rows left in the viewport, maintained as `(vHight - y).toNat`, so `r = 0`
is exactly the loop exit.  A failed `lineToContents` writes the gray `~`
marker at column 0 and continues with the next row, leaving `lY`
untouched.  Returns the final screen and the final `lY` (the wrap carry
used for `bottomPos`). -/
def bodyLoopGo (root : Root) (m : Model) (normalBg : Int) :
    Int → Screen → Int → Int → Nat → Screen × Int
  | _, scr, _, lY, 0 => (scr, lY)
  | y, scr, lX, lY, r + 1 =>
    match lineToContents m (m.lineNum + lY) root.TabWidth with
    | Except.error _ =>
      bodyLoopGo root m normalBg (y + 1) (setContent scr 0 y tildeCell) lX lY r
    | Except.ok lc0 =>
      let line := GetLine m (m.lineNum + lY)
      let lc1 : lineContents :=
        { lc0 with contents := lc0.contents.map fun c => { c with style := c.style.Reverse false } }
      let lc2 :=
        match root.input.reg with
        | none => lc1
        | some reg => (reg line).foldl (fun acc sp => reverseContents acc sp.1 sp.2) lc1
      let lc3 :=
        if root.ColumnMode then
          let se := rangePosition line root.ColumnDelimiter root.columnNum
          reverseContents lc2 se.1 se.2
        else lc2
      let scrA :=
        if root.LineNumMode then
          let nums := (strToContents (padInt (root.startX - 1) (m.lineNum + lY - root.Header + 1))
            root.TabWidth).map fun c => { c with style := defaultStyle.Bold true }
          setContentString scr 0 y nums
        else scr
      let rr :=
        if root.WrapMode then wrapContents root.startX m.vWidth scrA y lX lY lc3.contents
        else noWrapContents root.minStartX root.startX m.vWidth scrA y m.x lY lc3.contents
      let scrB :=
        if root.AlternateRows then
          let bg := if (m.lineNum + lY).tmod 2 = 1 then ColorAlternate else normalBg
          tintRow bg y rr.1 m.vWidth.toNat
        else rr.1
      bodyLoopGo root m normalBg (y + 1) scrB rr.2.1 rr.2.2 r

/-- The outputs of one draw cycle: the composed frame and the view-state
fields `Draw` mutates (`m.lineNum` and `root.bottomPos`). -/
structure DrawResult where
  scr : Screen
  lineNum : Int
  bottomPos : Int

/-- `Draw()` (lines 9–126): the main draw cycle.  The fuel bounds the
header loop, which has no intrinsic termination measure; `none` means the
header loop did not finish within the given fuel. -/
def Draw (fuel : Nat) (root : Root) (m : Model) (scr : Screen) : Option DrawResult :=
  if BufEndNum m = 0 ∨ m.vHight = 0 then
    let m1 : Model := { m with lineNum := 0 }
    some { scr := (statusDraw root m1 scr).1, lineNum := 0, bottomPos := root.bottomPos }
  else
    let scr0 := ResetScreen m scr
    let bottom := root.bottomLineNum (BufEndNum m) - root.Header
    let ln1 := if m.lineNum > bottom + 1 then bottom + 1 else m.lineNum
    let ln2 := if ln1 < 0 then 0 else ln1
    let m1 : Model := { m with lineNum := ln2 }
    let normalBg := defaultStyle.bg
    match headerLoopGo root m1 fuel scr0 0 0 0 with
    | none => none
    | some s =>
      let lX := m1.yy * m1.vWidth
      let rb := bodyLoopGo root m1 normalBg (HeaderLen root) s.1 lX s.2.2
        ((m1.vHight - HeaderLen root).toNat)
      let bp := if rb.2 > 0 then m1.lineNum + rb.2 - 1 else m1.lineNum + 1
      some { scr := (statusDraw root m1 rb.1).1, lineNum := m1.lineNum, bottomPos := bp }

/-! ## Frame and readback lemmas for the screen helpers -/

theorem fillRow_frame (row : Int) (c : ScreenCell) (scr : Screen) :
    ∀ (n : Nat) (p q : Int), q ≠ row → fillRow row c scr n p q = scr p q := by
  intro n
  induction n with
  | zero => intro p q _; rfl
  | succ k ih =>
    intro p q hq
    rw [fillRow, setContent, if_neg (fun hc => hq hc.2)]
    exact ih p q hq

theorem setContentString_frame (vy : Int) :
    ∀ (cs : List content) (scr : Screen) (vx p q : Int),
      q ≠ vy ∨ p < vx → setContentString scr vx vy cs p q = scr p q := by
  intro cs
  induction cs with
  | nil => intro scr vx p q _; rfl
  | cons c cs ih =>
    intro scr vx p q h
    rw [setContentString]
    rw [ih (setContent scr vx vy (cellOf c)) (vx + 1) p q
      (by rcases h with h | h; exact Or.inl h; exact Or.inr (by omega))]
    rw [setContent, if_neg]
    rintro ⟨hp, hq⟩
    rcases h with h | h
    · exact h hq
    · omega

theorem setContentString_read (vy : Int) :
    ∀ (cs : List content) (scr : Screen) (vx : Int) (i : Nat), i < cs.length →
      setContentString scr vx vy cs (vx + i) vy = cellOf (cs.getD i blankContent) := by
  intro cs
  induction cs with
  | nil => intro scr vx i hi; simp at hi
  | cons c cs ih =>
    intro scr vx i hi
    cases i with
    | zero =>
      rw [setContentString]
      rw [setContentString_frame vy cs _ (vx + 1) (vx + (0 : Nat)) vy
        (Or.inr (by push_cast; omega))]
      rw [setContent, if_pos ⟨by push_cast; ring, rfl⟩]
      rfl
    | succ j =>
      rw [setContentString]
      have hco : vx + ((j + 1 : Nat) : Int) = (vx + 1) + (j : Int) := by push_cast; ring
      rw [hco]
      rw [List.length_cons] at hi
      exact ih (setContent scr vx vy (cellOf c)) (vx + 1) j (by omega)

theorem statusDraw_frame (root : Root) (m : Model) (scr : Screen) (p q : Int)
    (hq : q ≠ root.statusPos) : (statusDraw root m scr).1 p q = scr p q := by
  simp only [statusDraw]
  split
  · rw [setContentString_frame _ _ _ _ _ _ (Or.inl hq),
      setContentString_frame _ _ _ _ _ _ (Or.inl hq),
      setContentString_frame _ _ _ _ _ _ (Or.inl hq)]
    exact fillRow_frame _ _ _ _ _ _ hq
  · rw [setContentString_frame _ _ _ _ _ _ (Or.inl hq),
      setContentString_frame _ _ _ _ _ _ (Or.inl hq)]
    exact fillRow_frame _ _ _ _ _ _ hq

/-! ## Draw-cycle theorems -/

/-- A concrete view state shared by the concrete-input witnesses. -/
def rootW : Root :=
  { Header := 0, TabWidth := 8, WrapMode := true, ColumnMode := false,
    LineNumMode := false, AlternateRows := false, CaseSensitive := false,
    Debug := false, ColumnDelimiter := ",", columnNum := 0, startX := 0,
    minStartX := -10, statusPos := 3, bottomPos := 0, message := "",
    input := { mode := InputMode.Normal, value := "", cursorX := 0, prompt := "",
               reg := none },
    bottomLineNum := fun n => n }

/-- C8: with a zero-line document or a zero viewport height, the draw cycle
resets the anchor line to 0, draws only the status line over the incoming
frame, presents that frame and stops: the result is exactly the status-line
draw, and every cell off the status row is untouched (no header or body
rows are drawn). -/
theorem draw_empty_document (fuel : Nat) (root : Root) (m : Model) (scr : Screen)
    (h : BufEndNum m = 0 ∨ m.vHight = 0) :
    Draw fuel root m scr =
      some { scr := (statusDraw root { m with lineNum := 0 } scr).1, lineNum := 0,
             bottomPos := root.bottomPos } ∧
    (∀ p q : Int, q ≠ root.statusPos →
      (statusDraw root { m with lineNum := 0 } scr).1 p q = scr p q) := by
  constructor
  · unfold Draw
    rw [if_pos h]
  · intro p q hq
    exact statusDraw_frame root _ scr p q hq

/-- A document with no buffered lines for the C8 witness. -/
def m8w : Model :=
  { bufLines := [], FileName := "f", eof := true, lineNum := 7, x := 0, yy := 0,
    vWidth := 4, vHight := 3 }

/-- Witness for C8 at a concrete input: a draw over an empty buffer resets
the anchor to 0 and leaves a cell off the status row untouched. -/
theorem draw_empty_document_witness :
    (Draw 1 rootW m8w emptyScreen).map DrawResult.lineNum = some 0 ∧
    (statusDraw rootW { m8w with lineNum := 0 } emptyScreen).1 0 0 = emptyScreen 0 0 := by
  have h := draw_empty_document 1 rootW m8w emptyScreen (Or.inl (by decide))
  exact ⟨by rw [h.1]; rfl, h.2 0 0 (by decide)⟩

/-- C2: on a draw cycle with a non-empty document and a non-zero viewport
height, writing `bottom` for `bottomLineNum(totalLines) - Header` (and
assuming the interval `[0, bottom+1]` is non-empty, which the spec's
reading of `bottom` as a valid anchor guarantees), the resulting anchor is
the old one clamped into `[0, bottom+1]`: an anchor above `bottom+1` comes
out as `bottom+1`, a negative anchor as 0, and an anchor already inside the
interval is unchanged. -/
theorem draw_anchor_clamp (fuel : Nat) (root : Root) (m : Model) (scr : Screen)
    (res : DrawResult) (hres : Draw fuel root m scr = some res)
    (h1 : BufEndNum m ≠ 0) (h2 : m.vHight ≠ 0)
    (hbot : 0 ≤ root.bottomLineNum (BufEndNum m) - root.Header + 1) :
    (root.bottomLineNum (BufEndNum m) - root.Header + 1 < m.lineNum →
      res.lineNum = root.bottomLineNum (BufEndNum m) - root.Header + 1) ∧
    (m.lineNum < 0 → res.lineNum = 0) ∧
    (0 ≤ m.lineNum → m.lineNum ≤ root.bottomLineNum (BufEndNum m) - root.Header + 1 →
      res.lineNum = m.lineNum) := by
  simp only [Draw] at hres
  rw [if_neg (by push_neg; exact ⟨h1, h2⟩)] at hres
  split at hres
  · exact Option.noConfusion hres
  · injection hres with hres
    refine ⟨?_, ?_, ?_⟩
    · intro hgt
      rw [← hres]
      show (if (if m.lineNum > _ then _ else _) < 0 then _ else _) = _
      split_ifs <;> omega
    · intro hneg
      rw [← hres]
      show (if (if m.lineNum > _ then _ else _) < 0 then _ else _) = _
      split_ifs <;> omega
    · intro hge hle
      rw [← hres]
      show (if (if m.lineNum > _ then _ else _) < 0 then _ else _) = _
      split_ifs <;> omega

/-- A three-line document with an anchor far past the end for the C2
witness. -/
def m2w : Model :=
  { bufLines := ["a", "b", "c"], FileName := "f", eof := true, lineNum := 9,
    x := 0, yy := 0, vWidth := 3, vHight := 2 }

/-- Witness for C2 at a concrete input: with 3 lines, `bottomLineNum = id`
and no header, the anchor 9 is clamped to `bottom + 1 = 4`. -/
theorem draw_anchor_clamp_witness :
    (Draw 3 rootW m2w emptyScreen).map DrawResult.lineNum = some 4 := by
  have hs : (Draw 3 rootW m2w emptyScreen).isSome = true := by decide
  cases hD : Draw 3 rootW m2w emptyScreen with
  | none => rw [hD] at hs; cases hs
  | some res =>
    have h := draw_anchor_clamp 3 rootW m2w emptyScreen res hD (by decide) (by decide)
      (by decide)
    have h4 := h.1 (by decide)
    rw [Option.map_some', h4]
    decide

/-- C6: when a body row's logical line is at or past the current line count
(`OutOfRange` — end of document), the body loop does not propagate the
failure: it writes the single gray `~` marker at column 0 of that screen
row, leaves every other cell of the frame unchanged (in a full cycle those
are the blank reset cells), and continues with the next row, keeping the
wrap carry `lY`. -/
theorem bodyLoop_eof_marker (root : Root) (m : Model) (normalBg : Int)
    (y : Int) (scr : Screen) (lX lY : Int) (r : Nat)
    (heof : BufEndNum m ≤ m.lineNum + lY) :
    bodyLoopGo root m normalBg y scr lX lY (r + 1) =
      bodyLoopGo root m normalBg (y + 1) (setContent scr 0 y tildeCell) lX lY r ∧
    (setContent scr 0 y tildeCell) 0 y = tildeCell ∧
    tildeCell = { mainc := '~', combc := [],
                  style := defaultStyle.Foreground ColorGray } ∧
    (∀ p q : Int, ¬(p = 0 ∧ q = y) → (setContent scr 0 y tildeCell) p q = scr p q) := by
  refine ⟨?_, by rw [setContent, if_pos ⟨rfl, rfl⟩], rfl, ?_⟩
  · have herr : lineToContents m (m.lineNum + lY) root.TabWidth = Except.error () := by
      unfold lineToContents
      rw [if_neg]
      rintro ⟨ha, hb⟩
      simp only [BufEndNum] at heof hb
      omega
    rw [bodyLoopGo, herr]
  · intro p q hpq
    rw [setContent, if_neg hpq]

/-- A one-line document with the anchor already past the end, for the C6
witness. -/
def m6w : Model :=
  { bufLines := ["a"], FileName := "f", eof := true, lineNum := 1, x := 0,
    yy := 0, vWidth := 3, vHight := 2 }

/-- Witness for C6 at a concrete input: row 1 of a document scrolled past
its single line receives the gray `~` at column 0, the neighbouring cell is
untouched, and the loop continues with row 2. -/
theorem bodyLoop_eof_marker_witness :
    (setContent emptyScreen 0 1 tildeCell) 0 1 = tildeCell ∧
    (setContent emptyScreen 0 1 tildeCell) 2 0 = emptyScreen 2 0 ∧
    bodyLoopGo rootW m6w (-1) 1 emptyScreen 0 0 1 =
      bodyLoopGo rootW m6w (-1) 2 (setContent emptyScreen 0 1 tildeCell) 0 0 0 := by
  have h := bodyLoop_eof_marker rootW m6w (-1) 1 emptyScreen 0 0 0 (by decide)
  exact ⟨h.2.1, h.2.2.2 2 0 (by decide), h.1⟩

/-- The right status segment as `statusDraw` formats it (source lines
225–229): `"(<anchorLine>/<totalLines><suffix>)"`, suffix `"..."` while the
document has not signaled end-of-input. -/
def rightStatusStr (m : Model) : String :=
  "(" ++ toString m.lineNum ++ "/" ++ toString (BufEndNum m) ++
    (if BufEOF m then "" else "...") ++ ")"

/-- C7: the right-aligned status segment is exactly
`"(<anchorLine>/<totalLines><suffix>)"`; the suffix is `"..."` iff the
document has not signaled end-of-input and empty otherwise; and the
segment's cells are on the status row right-aligned at columns
`vWidth - len(rightStatus) + i` (stated with the debug overlay off, which
would otherwise overwrite the middle of the row). -/
theorem statusDraw_right_segment (root : Root) (m : Model) (scr : Screen)
    (hdbg : root.Debug = false) :
    (BufEOF m = false ↔
      rightStatusStr m =
        "(" ++ toString m.lineNum ++ "/" ++ toString (BufEndNum m) ++ "..." ++ ")") ∧
    (BufEOF m = true →
      rightStatusStr m =
        "(" ++ toString m.lineNum ++ "/" ++ toString (BufEndNum m) ++ ")") ∧
    (∀ i : Nat, i < (strToContents (rightStatusStr m) (-1)).length →
      (statusDraw root m scr).1
          (m.vWidth - ((rightStatusStr m).utf8ByteSize : Int) + i) root.statusPos =
        cellOf ((strToContents (rightStatusStr m) (-1)).getD i blankContent)) := by
  refine ⟨⟨fun hf => by rw [rightStatusStr, hf]; rfl, fun heq => ?_⟩, fun ht => ?_, ?_⟩
  · by_contra hne
    have ht : BufEOF m = true := by
      cases hB : BufEOF m
      · exact absurd hB hne
      · rfl
    rw [rightStatusStr, ht, if_pos rfl] at heq
    have hlen := congrArg String.length heq
    have h3 : ("..." : String).length = 3 := rfl
    have h0 : ("" : String).length = 0 := rfl
    simp only [String.length_append, h3, h0] at hlen
    omega
  · rw [rightStatusStr, ht, if_pos rfl]
    have hnil : ("" : String).data = [] := rfl
    have he : ("(" ++ toString m.lineNum ++ "/" ++ toString (BufEndNum m)) ++ "" =
        "(" ++ toString m.lineNum ++ "/" ++ toString (BufEndNum m) :=
      String.ext (by rw [String.data_append, hnil, List.append_nil])
    rw [he]
  · intro i hi
    dsimp only [statusDraw]
    rw [hdbg, if_neg Bool.false_ne_true]
    exact setContentString_read root.statusPos (strToContents (rightStatusStr m) (-1))
      _ _ i hi

/-- A one-line still-loading document (no EOF yet) for the C7 witness. -/
def m7w : Model :=
  { bufLines := ["a"], FileName := "f", eof := false, lineNum := 0, x := 0,
    yy := 0, vWidth := 9, vHight := 2 }

/-- Witness for C7 at a concrete input: a document that has not signaled
end-of-input gets the `"..."` suffix, and the first segment cell (`'('`)
sits at column `vWidth - len` of the status row. -/
theorem statusDraw_right_segment_witness :
    (BufEOF m7w = false ↔
      rightStatusStr m7w =
        "(" ++ toString m7w.lineNum ++ "/" ++ toString (BufEndNum m7w) ++ "..." ++ ")") ∧
    (statusDraw rootW m7w emptyScreen).1
        (m7w.vWidth - ((rightStatusStr m7w).utf8ByteSize : Int) + (0 : Nat))
        rootW.statusPos =
      cellOf ((strToContents (rightStatusStr m7w) (-1)).getD 0 blankContent) := by
  have h := statusDraw_right_segment rootW m7w emptyScreen rfl
  exact ⟨h.1, h.2.2 0 (by decide)⟩

theorem lineContents_setContents_byteMap (lc : lineContents) (cs : List content) :
    ({ lc with contents := cs } : lineContents).byteMap = lc.byteMap := rfl

/-- C4: the header phase is pinned — running the header loop with any two
anchor values produces identical results (screen, offsets), because the
loop never reads the anchor; and each header line is drawn with every cell
restyled to the dedicated header style, with the selected column span
additionally reverse-highlighted exactly when column mode is active. -/
theorem header_rows_pinned (root : Root) (m : Model) (a b : Int) :
    (∀ (fuel : Nat) (scr : Screen) (lX lY hy : Int),
      headerLoopGo root { m with lineNum := a } fuel scr lX lY hy =
        headerLoopGo root { m with lineNum := b } fuel scr lX lY hy) ∧
    (∀ (lY : Int) (lc : lineContents) (n : Nat), root.ColumnMode = false →
      (headerLineContents root m lY lc).contents.get? n =
        (lc.contents.get? n).map fun c => { c with style := HeaderStyle }) ∧
    (∀ (lY : Int) (lc : lineContents) (n : Nat), root.ColumnMode = true →
      (headerLineContents root m lY lc).contents.get? n =
        (lc.contents.get? n).map fun c =>
          { c with style :=
              if lc.byteMap
                    (rangePosition (GetLine m lY) root.ColumnDelimiter root.columnNum).1 ≤ n ∧
                  n < lc.byteMap
                    (rangePosition (GetLine m lY) root.ColumnDelimiter root.columnNum).2
              then HeaderStyle.Reverse true else HeaderStyle }) := by
  refine ⟨?_, ?_, ?_⟩
  · intro fuel
    induction fuel with
    | zero => intro scr lX lY hy; rfl
    | succ n ih =>
      intro scr lX lY hy
      have e1 : ∀ (v k t : Int),
          lineToContents { m with lineNum := v } k t = lineToContents m k t :=
        fun _ _ _ => rfl
      have e2 : ∀ (v lY0 : Int) (lc : lineContents),
          headerLineContents root { m with lineNum := v } lY0 lc =
            headerLineContents root m lY0 lc := fun _ _ _ => rfl
      have e3 : ∀ v : Int, ({ m with lineNum := v } : Model).vWidth = m.vWidth :=
        fun _ => rfl
      have e4 : ∀ v : Int, ({ m with lineNum := v } : Model).x = m.x := fun _ => rfl
      simp only [headerLoopGo, e1, e2, e3, e4]
      split
      · cases hlt : lineToContents m lY root.TabWidth with
        | error e => exact ih scr lX lY (hy + 1)
        | ok lc => exact ih _ _ _ _
      · rfl
  · intro lY lc n hcol
    rw [headerLineContents]
    rw [if_neg (by rw [hcol]; exact Bool.false_ne_true)]
    show (headerStyle lc.contents).get? n = _
    rw [headerStyle, List.get?_map]
  · intro lY lc n hcol
    rw [headerLineContents]
    rw [if_pos (by rw [hcol])]
    rw [reverseContents]
    show (mapIdxFrom
        (reverseCell (lc.byteMap _) (lc.byteMap _)) 0 (headerStyle lc.contents)).get? n = _
    rw [mapIdxFrom_get?, headerStyle, List.get?_map, Option.map_map]
    cases lc.contents.get? n with
    | none => rfl
    | some c =>
      simp only [Option.map_some', Function.comp, Nat.zero_add]
      rw [reverseCell]
      split_ifs <;> rfl

/-- A one-cell laid-out line and a one-line document for the C4 witness. -/
def lc4 : lineContents := { contents := [blankContent], byteMap := fun _ => 0 }

def m4w : Model :=
  { bufLines := ["a,b"], FileName := "f", eof := true, lineNum := 0, x := 0,
    yy := 0, vWidth := 5, vHight := 3 }

/-- Witness for C4 at concrete inputs: the header loop result is unchanged
when the anchor moves from 3 to 7; without column mode the processed header
cell carries the header style; with column mode (empty highlight span here)
it carries the header style computed through the column branch. -/
theorem header_rows_pinned_witness :
    headerLoopGo rootW { m4w with lineNum := 3 } 2 emptyScreen 0 0 0 =
      headerLoopGo rootW { m4w with lineNum := 7 } 2 emptyScreen 0 0 0 ∧
    (headerLineContents rootW m4w 0 lc4).contents.get? 0 =
      some { blankContent with style := HeaderStyle } ∧
    (headerLineContents { rootW with ColumnMode := true } m4w 0 lc4).contents.get? 0 =
      some { blankContent with style := HeaderStyle } := by
  refine ⟨(header_rows_pinned rootW m4w 3 7).1 2 emptyScreen 0 0 0, ?_, ?_⟩
  · rw [(header_rows_pinned rootW m4w 3 7).2.1 0 lc4 0 rfl]
    decide
  · rw [(header_rows_pinned { rootW with ColumnMode := true } m4w 3 7).2.2 0 lc4 0 rfl]
    decide

/-- Once the header loop's `lY` is at or past the buffered line count while
still below `Header`, the `continue` branch repeats forever: no amount of
fuel makes the loop finish. -/
theorem headerLoop_stuck (root : Root) (m : Model) (lY : Int)
    (h1 : BufEndNum m ≤ lY) (h2 : lY < root.Header) :
    ∀ (fuel : Nat) (scr : Screen) (lX hy : Int),
      headerLoopGo root m fuel scr lX lY hy = none := by
  intro fuel
  induction fuel with
  | zero => intro scr lX hy; rfl
  | succ n ih =>
    intro scr lX hy
    have herr : lineToContents m lY root.TabWidth = Except.error () := by
      unfold lineToContents
      rw [if_neg]
      rintro ⟨ha, hb⟩
      simp only [BufEndNum] at h1 hb
      omega
    rw [headerLoopGo, if_pos h2, herr]
    exact ih scr lX (hy + 1)

/-- The document and view state exhibiting the hang: 5 header rows
configured but only 2 lines buffered (non-empty document, non-zero
viewport). -/
def m9w : Model :=
  { bufLines := ["a", "b"], FileName := "f", eof := true, lineNum := 0, x := 0,
    yy := 0, vWidth := 3, vHight := 2 }

def root9 : Root :=
  { Header := 5, TabWidth := 8, WrapMode := true, ColumnMode := false,
    LineNumMode := false, AlternateRows := false, CaseSensitive := false,
    Debug := false, ColumnDelimiter := ",", columnNum := 0, startX := 0,
    minStartX := -10, statusPos := 2, bottomPos := 0, message := "",
    input := { mode := InputMode.Normal, value := "", cursorX := 0, prompt := "",
               reg := none },
    bottomLineNum := fun n => n }

/-- C9 (the code violates the claim): with 5 header rows configured and only
2 lines buffered, the header loop of `Draw` reaches `lY = 2 < Header`,
`lineToContents` fails there, and the `continue` branch never advances
`lY`, so the draw cycle never completes — `Draw` returns `none` for every
fuel.  The claim (and the spec's error-handling design, which says an
out-of-range line is rendered as end-of-document rather than propagated)
expects `Draw` to terminate for every document state. -/
theorem draw_header_loop_diverges (fuel : Nat) :
    Draw fuel root9 m9w emptyScreen = none := by
  have key : ∀ (fu : Nat) (scr : Screen) (hy : Int),
      headerLoopGo root9 m9w fu scr 0 0 hy = none := by
    have stuck := headerLoop_stuck root9 m9w 2 (by decide) (by decide)
    intro fu
    match fu with
    | 0 => intro scr hy; rfl
    | 1 =>
      intro scr hy
      rfl
    | fu + 2 =>
      intro scr hy
      show headerLoopGo root9 m9w fu _ 0 2 (hy + 1 + 1) = none
      exact stuck fu _ _ _
  simp only [Draw]
  rw [if_neg (by decide)]
  split
  · rfl
  · next s heq =>
    have h0 := key fuel (ResetScreen m9w emptyScreen) 0
    exact Option.noConfusion (h0.symm.trans heq)

end Oviewer
